import Mathlib

set_option linter.unreachableTactic false
set_option linter.unnecessarySeqFocus false
set_option linter.unusedTactic false
set_option linter.unnecessarySimpa false

/-!
Verification of the gene-prediction core in `gpred/gpred.py`.

The Python code drives everything through three compiled regular expressions
(`start_regex = AT[TG]|[ATCG]TG`, `stop_regex = TA[GA]|TGA`,
`shine_regex = A?G?GAGG|GGAG|GG.{1}GG`) and the `re` module's `search`
(leftmost match between `pos` and `endpos`) and `finditer` (all
non-overlapping matches from `pos`, scanning left to right and resuming
after the end of each non-empty match).  We embed exactly that fragment of
the regex engine: literal characters, character classes, the wildcard, and
an optional character, with Python's ordered-alternation, greedy,
backtracking semantics.

Sequences are `List Char`; positions are `Nat` (the Python code only ever
passes non-negative positions to the regex engine, and `endpos` values below
zero are clamped to `0` by CPython, which `Nat` truncated subtraction
mirrors).
-/

namespace GPred

/-- Tokens of the regular-expression fragment used by `gpred.py`:
a literal character, a character class `[...]`, the wildcard `.`,
and an optional character `c?`. -/
inductive RTok where
  | lit (c : Char)
  | cls (cs : List Char)
  | any
  | opt (c : Char)
deriving DecidableEq

/-- One alternative of an alternation: a concatenation of tokens. -/
abbrev Alt := List RTok

/-- A regular expression `alt1|alt2|...`: Python tries the alternatives
in order at each candidate position. -/
abbrev RE := List Alt

/-- Greedy deterministic matcher for one alternative at position `p`:
returns the end position of the match, backtracking on optional tokens,
exactly as Python's regex engine does within one alternative. -/
def altMatch : Alt → List Char → Nat → Option Nat
  | [], _, p => some p
  | .lit c :: ts, s, p =>
    if h : p < s.length then
      if s[p] = c then altMatch ts s (p + 1) else none
    else none
  | .cls cs :: ts, s, p =>
    if h : p < s.length then
      if s[p] ∈ cs then altMatch ts s (p + 1) else none
    else none
  | .any :: ts, s, p =>
    if p < s.length then altMatch ts s (p + 1) else none
  | .opt c :: ts, s, p =>
    if h : p < s.length then
      if s[p] = c then
        match altMatch ts s (p + 1) with
        | some e => some e
        | none => altMatch ts s p
      else altMatch ts s p
    else altMatch ts s p

/-- Match attempt of an alternation at one position: first alternative
(in source order) that matches wins, as in Python. -/
def reMatchAt : RE → List Char → Nat → Option Nat
  | [], _, _ => none
  | alt :: alts, s, p =>
    match altMatch alt s p with
    | some e => some e
    | none => reMatchAt alts s p

/-- Nondeterministic matching relation (as a boolean): the alternative `ts`
can consume exactly the segment `[p, e)` of `s`, with optional tokens free
to be taken or skipped.  Used to state what an "occurrence" of a pattern is,
independently of the engine's greedy strategy. -/
def matchesB : Alt → List Char → Nat → Nat → Bool
  | [], _, p, e => p == e
  | .lit c :: ts, s, p, e =>
    if h : p < s.length then (s[p] = c) && matchesB ts s (p + 1) e else false
  | .cls cs :: ts, s, p, e =>
    if h : p < s.length then (decide (s[p] ∈ cs)) && matchesB ts s (p + 1) e else false
  | .any :: ts, s, p, e =>
    if p < s.length then matchesB ts s (p + 1) e else false
  | .opt c :: ts, s, p, e =>
    if h : p < s.length then
      if s[p] = c then matchesB ts s (p + 1) e || matchesB ts s p e
      else matchesB ts s p e
    else matchesB ts s p e

/-- The alternation `re` has an occurrence at `[p, e)` in `s`. -/
def reMatches (re : RE) (s : List Char) (p e : Nat) : Bool :=
  re.any fun alt => matchesB alt s p e

/-- Fuel-indexed scan for the leftmost match at or after `p`
(the fuel is always instantiated with `s.length + 1 - p`, enough to scan
to the end of the string). Returns the (start, end) pair of the match. -/
def searchAux (re : RE) (s : List Char) : Nat → Nat → Option (Nat × Nat)
  | 0, _ => none
  | fuel + 1, p =>
    if p ≤ s.length then
      match reMatchAt re s p with
      | some e => some (p, e)
      | none => searchAux re s fuel (p + 1)
    else none

/-- Python's `pattern.search(s, pos)`: leftmost match starting at or after
`pos` (start and end positions). -/
def searchFrom (re : RE) (s : List Char) (p : Nat) : Option (Nat × Nat) :=
  searchAux re s (s.length + 1 - p) p

/-- Fuel-indexed version of `finditer`. After a match `(q, e)` the scan
resumes at `e` for a non-empty match and at `q + 1` for an empty one,
i.e. at `max e (q + 1)` — CPython's non-overlapping enumeration. -/
def finditerAux (re : RE) (s : List Char) : Nat → Nat → List (Nat × Nat)
  | 0, _ => []
  | fuel + 1, p =>
    match searchFrom re s p with
    | none => []
    | some m => m :: finditerAux re s fuel (max m.2 (m.1 + 1))

/-- Python's `pattern.finditer(s, pos)`: all non-overlapping matches at or
after `pos`, in increasing start order. -/
def finditer (re : RE) (s : List Char) (p : Nat) : List (Nat × Nat) :=
  finditerAux re s (s.length + 1 - p) p

/-- `start_regex = re.compile('AT[TG]|[ATCG]TG')` from `gpred.py`. -/
def startRE : RE :=
  [[.lit 'A', .lit 'T', .cls ['T', 'G']],
   [.cls ['A', 'T', 'C', 'G'], .lit 'T', .lit 'G']]

/-- `stop_regex = re.compile('TA[GA]|TGA')` from `gpred.py`. -/
def stopRE : RE :=
  [[.lit 'T', .lit 'A', .cls ['G', 'A']],
   [.lit 'T', .lit 'G', .lit 'A']]

/-- `shine_regex = re.compile('A?G?GAGG|GGAG|GG.{1}GG')` from `gpred.py`. -/
def shineRE : RE :=
  [[.opt 'A', .opt 'G', .lit 'G', .lit 'A', .lit 'G', .lit 'G'],
   [.lit 'G', .lit 'G', .lit 'A', .lit 'G'],
   [.lit 'G', .lit 'G', .any, .lit 'G', .lit 'G']]

/-- The pattern `GG.GG` on its own (one alternative of the Shine-Dalgarno
pattern), used by the specification's overlapping-matches example. -/
def ggxggRE : RE :=
  [[.lit 'G', .lit 'G', .any, .lit 'G', .lit 'G']]

/-- `find_start(start_regex, sequence, start, stop)` from `gpred.py`:
`start_regex.search(sequence, start, stop)`, returning the match's start.
CPython's `endpos` truncates the subject string, which `List.take` mirrors. -/
def find_start (sequence : List Char) (start stop : Nat) : Option Nat :=
  (searchFrom startRE (sequence.take stop) start).map (·.1)

/-- `find_stop(stop_regex, sequence, start)` from `gpred.py`: iterate the
non-overlapping matches of the stop pattern from `start` and return the
start of the first one in the same reading frame (`(p - start) % 3 == 0`);
`None` when the iteration exhausts. -/
def find_stop (sequence : List Char) (start : Nat) : Option Nat :=
  ((finditer stopRE sequence start).find? fun m => (m.1 - start) % 3 == 0).map (·.1)

/-- `has_shine_dalgarno(shine_regex, sequence, start, max_shine_dalgarno_distance)`
from `gpred.py`: the guard `new_start >= 0` is `max_shine_dalgarno_distance ≤ start`
over the integers; inside it, `shine_regex.search(sequence, new_start, start - 6)`
(a negative `endpos` is clamped to `0` by CPython, as `Nat` subtraction does). -/
def has_shine_dalgarno (sequence : List Char) (start max_shine_dalgarno_distance : Nat) : Bool :=
  if max_shine_dalgarno_distance ≤ start then
    (searchFrom shineRE (sequence.take (start - 6)) (start - max_shine_dalgarno_distance)).isSome
  else false

/-- The three configuration values `predict_genes` consumes. -/
structure Cfg where
  min_gene_len : Nat
  max_shine_dalgarno_distance : Nat
  min_gap : Nat
deriving DecidableEq

/-- State of the `while` loop of `predict_genes`: either still running with
the cursor `current_position` and the accumulated `identified_genes`, or the
loop exited normally, or the program raised a `TypeError` (which happens in
the Python code when `find_start` returns `None`: the loop condition then
evaluates `len(sequence) - None`). -/
inductive ScanState where
  | running (pos : Nat) (genes : List (Nat × Nat))
  | done (genes : List (Nat × Nat))
  | typeError (genes : List (Nat × Nat))
deriving DecidableEq

/-- One iteration of the `while` loop of `predict_genes` in `gpred.py`.
Note the two Python truthiness tests: `if current_position:` is false both
for `None` (modelled by `typeError`, since the next loop-condition check
raises) and for the integer `0` (in which case the body is skipped and the
loop re-runs with the cursor still at `0`); likewise `if stop:` treats a
stop position `0` as falsy. -/
def scanStep (cfg : Cfg) (s : List Char) : ScanState → ScanState
  | .running pos genes =>
    if pos + cfg.min_gap ≤ s.length then
      match find_start s pos s.length with
      | none => .typeError genes
      | some cp =>
        if cp = 0 then .running cp genes
        else
          match find_stop s cp with
          | none => .running (cp + 1) genes
          | some stop =>
            if stop = 0 then .running (cp + 1) genes
            else if cfg.min_gene_len < stop - cp + 3 then
              if has_shine_dalgarno s cp cfg.max_shine_dalgarno_distance then
                .running (stop + 2 + cfg.min_gap) (genes ++ [(cp + 1, stop + 3)])
              else .running (cp + 1) genes
            else .running (cp + 1) genes
    else .done genes
  | st => st

/-- Iterate `scanStep`. -/
def runScan (cfg : Cfg) (s : List Char) : Nat → ScanState → ScanState
  | 0, st => st
  | fuel + 1, st => runScan cfg s fuel (scanStep cfg s st)

/-- `predict_genes` from `gpred.py`, as a fuel-indexed loop: `some genes`
when the loop exits normally within `fuel` iterations (start cursor `0`,
empty accumulator), `none` when it is still running or raised. -/
def predict_genes (cfg : Cfg) (s : List Char) (fuel : Nat) : Option (List (Nat × Nat)) :=
  match runScan cfg s fuel (.running 0 []) with
  | .done genes => some genes
  | _ => none

/-- The coordinate remap applied to every reverse-strand gene in `main`
(`gpred.py` lines 244-246): `gene.reverse()` followed by the simultaneous
assignment `gene[0], gene[1] = len(sequence_rc) - gene[1] + 1,
len(sequence_rc) - gene[0] + 1`, whose right-hand side reads the already
reversed pair. -/
def remapReverseGene (n : Nat) (g : Nat × Nat) : Nat × Nat :=
  let r : Nat × Nat := (g.2, g.1)
  (n - r.2 + 1, n - r.1 + 1)

/-- The `complement` dictionary of `reverse_complement` in `gpred.py`;
a symbol outside {A,C,G,T} raises `KeyError`, modelled by `none`. -/
def complementBase (c : Char) : Option Char :=
  if c = 'A' then some 'T'
  else if c = 'C' then some 'G'
  else if c = 'G' then some 'C'
  else if c = 'T' then some 'A'
  else none

/-- The list comprehension `[complement[base] for base in ...]`, with
`KeyError` propagation. -/
def mapComplement : List Char → Option (List Char)
  | [] => some []
  | c :: cs =>
    match complementBase c, mapComplement cs with
    | some d, some ds => some (d :: ds)
    | _, _ => none

/-- `reverse_complement(sequence)` from `gpred.py`:
`''.join([complement[base] for base in sequence[::-1]])`. -/
def reverse_complement (sequence : List Char) : Option (List Char) :=
  mapComplement sequence.reverse

/-- Total Watson-Crick complement on {A,C,G,T} (the value on other
characters is irrelevant: it is only used beneath a validity hypothesis). -/
def complChar (c : Char) : Char :=
  if c = 'A' then 'T' else if c = 'C' then 'G' else if c = 'G' then 'C' else 'A'

/-- The stop pattern has a (greedy-engine) match starting at `p`. -/
def stopMatchAt (s : List Char) (p : Nat) : Bool :=
  (reMatchAt stopRE s p).isSome

/-- The three bases of `s` at indices `i`, `i+1`, `i+2` (defaulting out of
range, which never happens where this is used). -/
def tripleAt (s : List Char) (i : Nat) : List Char :=
  [s.getD i 'N', s.getD (i + 1) 'N', s.getD (i + 2) 'N']

/-- The five start codons recognised by `start_regex`. -/
def startCodons : List (List Char) :=
  [['A', 'T', 'T'], ['A', 'T', 'G'], ['G', 'T', 'G'], ['T', 'T', 'G'], ['C', 'T', 'G']]

/-- The three stop codons recognised by `stop_regex`. -/
def stopCodons : List (List Char) :=
  [['T', 'A', 'A'], ['T', 'A', 'G'], ['T', 'G', 'A']]

-- Concrete sequences used by witnesses and counterexamples.

/-- A sequence with a Shine-Dalgarno box at 0, ten spacer bases, a start
codon `ATG` at 16 and an in-frame stop `TAA` at 19 (length 22). -/
def seqW : List Char :=
  ['A', 'G', 'G', 'A', 'G', 'G', 'C', 'C', 'C', 'C', 'C',
   'C', 'C', 'C', 'C', 'C', 'A', 'T', 'G', 'T', 'A', 'A']

/-- `seqW` followed by a second Shine-Dalgarno box, spacer, start codon
`ATG` at 38 and stop `TAA` at 41 (length 44): the scan accepts two genes. -/
def seqW2 : List Char :=
  seqW ++ ['A', 'G', 'G', 'A', 'G', 'G', 'C', 'C', 'C', 'C', 'C',
           'C', 'C', 'C', 'C', 'C', 'A', 'T', 'G', 'T', 'A', 'A']

/-- A sequence whose first three bases are the start codon `ATG`. -/
def seqX : List Char := ['A', 'T', 'G', 'A', 'A', 'A', 'T', 'A', 'A']

/-- A sequence containing no start codon at all. -/
def seqY : List Char := ['A', 'A', 'A', 'A', 'A']

/-- The specification's overlapping-matches example subject `GGAGGAGG`. -/
def seqG : List Char := ['G', 'G', 'A', 'G', 'G', 'A', 'G', 'G']

/-- A token is rigid when it consumes exactly one character unconditionally
(everything except the optional token). -/
def rigid : RTok → Bool
  | .opt _ => false
  | _ => true

/-- Which characters a rigid token accepts. -/
def tokAccepts : RTok → Char → Bool
  | .lit c, d => d = c
  | .cls cs, d => d ∈ cs
  | .any, _ => true
  | .opt c, d => d = c

/-- Well-formedness of an accepted gene `(a, b) = (c + 1, t + 3)`:
the cursor value `c` and stop position `t` it was built from, with the
facts the scan guarantees at the moment of emission. -/
def geneOK (cfg : Cfg) (s : List Char) (g : Nat × Nat) : Prop :=
  ∃ c t : Nat, g = (c + 1, t + 3) ∧ 1 ≤ c ∧ c ≤ t ∧ t + 3 ≤ s.length ∧
    (t - c) % 3 = 0 ∧ cfg.min_gene_len < t - c + 3 ∧
    tripleAt s c ∈ startCodons ∧ tripleAt s t ∈ stopCodons

/-- Well-formedness of the accumulated gene list: every gene is well formed
and consecutive genes are separated by at least `min_gap`. -/
def genesOK (cfg : Cfg) (s : List Char) (genes : List (Nat × Nat)) : Prop :=
  (∀ g ∈ genes, geneOK cfg s g) ∧
  List.Chain' (fun g h => g.2 + cfg.min_gap ≤ h.1) genes

/-- The loop invariant of `predict_genes`: the accumulated list is well
formed, and while running, the cursor has moved past the last accepted
gene's stop codon plus the gap (`b + min_gap ≤ pos + 1`). -/
def stateOK (cfg : Cfg) (s : List Char) : ScanState → Prop
  | .running pos genes => genesOK cfg s genes ∧
      ∀ g, genes.getLast? = some g → g.2 + cfg.min_gap ≤ pos + 1
  | .done genes => genesOK cfg s genes
  | .typeError genes => genesOK cfg s genes

/-! ### Basic lemmas about the greedy matcher -/

theorem altMatch_le {s : List Char} : ∀ {ts : Alt} {p e : Nat},
    altMatch ts s p = some e → p ≤ e
  | [], p, e, h => by simp only [altMatch, Option.some.injEq] at h; omega
  | .lit c :: ts, p, e, h => by
    simp only [altMatch] at h
    split at h
    · split at h
      · exact Nat.le_of_succ_le (altMatch_le h)
      · exact absurd h (by simp)
    · exact absurd h (by simp)
  | .cls cs :: ts, p, e, h => by
    simp only [altMatch] at h
    split at h
    · split at h
      · exact Nat.le_of_succ_le (altMatch_le h)
      · exact absurd h (by simp)
    · exact absurd h (by simp)
  | .any :: ts, p, e, h => by
    simp only [altMatch] at h
    split at h
    · exact Nat.le_of_succ_le (altMatch_le h)
    · exact absurd h (by simp)
  | .opt c :: ts, p, e, h => by
    simp only [altMatch] at h
    split at h
    · split at h
      · rcases heq : altMatch ts s (p + 1) with _ | e₁
        · rw [heq] at h
          exact altMatch_le h
        · rw [heq] at h
          simp only [Option.some.injEq] at h
          subst h
          exact Nat.le_of_succ_le (altMatch_le heq)
      · exact altMatch_le h
    · exact altMatch_le h

theorem altMatch_le_length {s : List Char} : ∀ {ts : Alt} {p e : Nat},
    p ≤ s.length → altMatch ts s p = some e → e ≤ s.length
  | [], p, e, hp, h => by simp only [altMatch, Option.some.injEq] at h; omega
  | .lit c :: ts, p, e, hp, h => by
    simp only [altMatch] at h
    split at h
    · split at h
      · exact altMatch_le_length (by omega) h
      · exact absurd h (by simp)
    · exact absurd h (by simp)
  | .cls cs :: ts, p, e, hp, h => by
    simp only [altMatch] at h
    split at h
    · split at h
      · exact altMatch_le_length (by omega) h
      · exact absurd h (by simp)
    · exact absurd h (by simp)
  | .any :: ts, p, e, hp, h => by
    simp only [altMatch] at h
    split at h
    · next hlt => exact altMatch_le_length (by omega) h
    · exact absurd h (by simp)
  | .opt c :: ts, p, e, hp, h => by
    simp only [altMatch] at h
    split at h
    · next hlt =>
      split at h
      · rcases heq : altMatch ts s (p + 1) with _ | e₁
        · rw [heq] at h
          exact altMatch_le_length hp h
        · rw [heq] at h
          simp only [Option.some.injEq] at h
          subst h
          exact altMatch_le_length (by omega) heq
      · exact altMatch_le_length hp h
    · exact altMatch_le_length hp h

theorem matchesB_le {s : List Char} : ∀ {ts : Alt} {p e : Nat},
    matchesB ts s p e = true → p ≤ e
  | [], p, e, h => by
    simp only [matchesB, beq_iff_eq] at h
    omega
  | .lit c :: ts, p, e, h => by
    simp only [matchesB] at h
    split at h
    · simp only [Bool.and_eq_true] at h
      exact Nat.le_of_succ_le (matchesB_le h.2)
    · exact absurd h (by simp)
  | .cls cs :: ts, p, e, h => by
    simp only [matchesB] at h
    split at h
    · simp only [Bool.and_eq_true] at h
      exact Nat.le_of_succ_le (matchesB_le h.2)
    · exact absurd h (by simp)
  | .any :: ts, p, e, h => by
    simp only [matchesB] at h
    split at h
    · exact Nat.le_of_succ_le (matchesB_le h)
    · exact absurd h (by simp)
  | .opt c :: ts, p, e, h => by
    simp only [matchesB] at h
    split at h
    · split at h
      · simp only [Bool.or_eq_true] at h
        rcases h with h | h
        · exact Nat.le_of_succ_le (matchesB_le h)
        · exact matchesB_le h
      · exact matchesB_le h
    · exact matchesB_le h

theorem matchesB_of_altMatch {s : List Char} : ∀ {ts : Alt} {p e : Nat},
    altMatch ts s p = some e → matchesB ts s p e = true
  | [], p, e, h => by
    simp only [altMatch, Option.some.injEq] at h
    simp [matchesB, h]
  | .lit c :: ts, p, e, h => by
    simp only [altMatch] at h
    simp only [matchesB]
    split at h
    · next hlt =>
      split at h
      · next hc =>
        rw [dif_pos hlt]
        simp [hc, matchesB_of_altMatch h]
      · exact absurd h (by simp)
    · exact absurd h (by simp)
  | .cls cs :: ts, p, e, h => by
    simp only [altMatch] at h
    simp only [matchesB]
    split at h
    · next hlt =>
      split at h
      · next hc =>
        rw [dif_pos hlt]
        simp [hc, matchesB_of_altMatch h]
      · exact absurd h (by simp)
    · exact absurd h (by simp)
  | .any :: ts, p, e, h => by
    simp only [altMatch] at h
    simp only [matchesB]
    split at h
    · next hlt =>
      rw [if_pos hlt]
      exact matchesB_of_altMatch h
    · exact absurd h (by simp)
  | .opt c :: ts, p, e, h => by
    simp only [altMatch] at h
    simp only [matchesB]
    split at h
    · next hlt =>
      rw [dif_pos hlt]
      split at h
      · next hc =>
        rw [if_pos hc]
        rcases heq : altMatch ts s (p + 1) with _ | e₁
        · rw [heq] at h
          simp [matchesB_of_altMatch h]
        · rw [heq] at h
          simp only [Option.some.injEq] at h
          subst h
          simp [matchesB_of_altMatch heq]
      · next hc =>
        rw [if_neg hc]
        exact matchesB_of_altMatch h
    · next hlt =>
      rw [dif_neg hlt]
      exact matchesB_of_altMatch h

theorem altMatch_isSome_of_matchesB {s : List Char} : ∀ {ts : Alt} {p e : Nat},
    matchesB ts s p e = true → (altMatch ts s p).isSome = true
  | [], p, e, _ => by simp [altMatch]
  | .lit c :: ts, p, e, h => by
    simp only [matchesB] at h
    simp only [altMatch]
    split at h
    · next hlt =>
      simp only [Bool.and_eq_true, decide_eq_true_eq] at h
      rw [dif_pos hlt, if_pos h.1]
      exact altMatch_isSome_of_matchesB h.2
    · exact absurd h (by simp)
  | .cls cs :: ts, p, e, h => by
    simp only [matchesB] at h
    simp only [altMatch]
    split at h
    · next hlt =>
      simp only [Bool.and_eq_true, decide_eq_true_eq] at h
      rw [dif_pos hlt, if_pos h.1]
      exact altMatch_isSome_of_matchesB h.2
    · exact absurd h (by simp)
  | .any :: ts, p, e, h => by
    simp only [matchesB] at h
    simp only [altMatch]
    split at h
    · next hlt =>
      rw [if_pos hlt]
      exact altMatch_isSome_of_matchesB h
    · exact absurd h (by simp)
  | .opt c :: ts, p, e, h => by
    simp only [matchesB] at h
    simp only [altMatch]
    split at h
    · next hlt =>
      rw [dif_pos hlt]
      split at h
      · next hc =>
        rw [if_pos hc]
        rcases heq : altMatch ts s (p + 1) with _ | e₁
        · simp only [Bool.or_eq_true] at h
          rcases h with h | h
          · have := altMatch_isSome_of_matchesB h
            rw [heq] at this
            exact absurd this (by simp)
          · exact altMatch_isSome_of_matchesB h
        · rfl
      · next hc =>
        rw [if_neg hc]
        exact altMatch_isSome_of_matchesB h
    · next hlt =>
      rw [dif_neg hlt]
      exact altMatch_isSome_of_matchesB h

theorem matchesB_of_take {s : List Char} {n : Nat} : ∀ {ts : Alt} {p e : Nat},
    matchesB ts (s.take n) p e = true → matchesB ts s p e = true
  | [], p, e, h => by simpa [matchesB] using h
  | .lit c :: ts, p, e, h => by
    simp only [matchesB] at h ⊢
    split at h
    · next hlt =>
      have hlen : p < s.length := by
        rw [List.length_take] at hlt
        omega
      simp only [Bool.and_eq_true, decide_eq_true_eq] at h
      rw [List.getElem_take] at h
      rw [dif_pos hlen]
      simp only [Bool.and_eq_true, decide_eq_true_eq]
      exact ⟨h.1, matchesB_of_take h.2⟩
    · exact absurd h (by simp)
  | .cls cs :: ts, p, e, h => by
    simp only [matchesB] at h ⊢
    split at h
    · next hlt =>
      have hlen : p < s.length := by
        rw [List.length_take] at hlt
        omega
      simp only [Bool.and_eq_true, decide_eq_true_eq] at h
      rw [List.getElem_take] at h
      rw [dif_pos hlen]
      simp only [Bool.and_eq_true, decide_eq_true_eq]
      exact ⟨h.1, matchesB_of_take h.2⟩
    · exact absurd h (by simp)
  | .any :: ts, p, e, h => by
    simp only [matchesB] at h ⊢
    split at h
    · next hlt =>
      have hlen : p < s.length := by
        rw [List.length_take] at hlt
        omega
      rw [if_pos hlen]
      exact matchesB_of_take h
    · exact absurd h (by simp)
  | .opt c :: ts, p, e, h => by
    simp only [matchesB] at h ⊢
    split at h
    · next hlt =>
      have hlen : p < s.length := by
        rw [List.length_take] at hlt
        omega
      have hchar : (s.take n)[p] = s[p] := List.getElem_take s
      rw [dif_pos hlen]
      split at h
      · next hc =>
        rw [if_pos (by rw [← hchar]; exact hc)]
        simp only [Bool.or_eq_true] at h ⊢
        rcases h with h | h
        · exact Or.inl (matchesB_of_take h)
        · exact Or.inr (matchesB_of_take h)
      · next hc =>
        rw [if_neg (by rw [← hchar]; exact hc)]
        exact matchesB_of_take h
    · next hlt =>
      by_cases hlen : p < s.length
      · rw [dif_pos hlen]
        by_cases hc : s[p] = c
        · rw [if_pos hc]
          simp only [Bool.or_eq_true]
          exact Or.inr (matchesB_of_take h)
        · rw [if_neg hc]
          exact matchesB_of_take h
      · rw [dif_neg hlen]
        exact matchesB_of_take h

theorem matchesB_take {s : List Char} {n : Nat} : ∀ {ts : Alt} {p e : Nat},
    matchesB ts s p e = true → e ≤ n → matchesB ts (s.take n) p e = true
  | [], p, e, h, _ => by simpa [matchesB] using h
  | .lit c :: ts, p, e, h, hen => by
    simp only [matchesB] at h ⊢
    split at h
    · next hlt =>
      simp only [Bool.and_eq_true, decide_eq_true_eq] at h
      have hpe : p + 1 ≤ e := matchesB_le h.2
      have hlt2 : p < (s.take n).length := by
        rw [List.length_take]
        omega
      rw [dif_pos hlt2]
      simp only [Bool.and_eq_true, decide_eq_true_eq]
      exact ⟨by rw [List.getElem_take]; exact h.1, matchesB_take h.2 hen⟩
    · exact absurd h (by simp)
  | .cls cs :: ts, p, e, h, hen => by
    simp only [matchesB] at h ⊢
    split at h
    · next hlt =>
      simp only [Bool.and_eq_true, decide_eq_true_eq] at h
      have hpe : p + 1 ≤ e := matchesB_le h.2
      have hlt2 : p < (s.take n).length := by
        rw [List.length_take]
        omega
      rw [dif_pos hlt2]
      simp only [Bool.and_eq_true, decide_eq_true_eq]
      exact ⟨by rw [List.getElem_take]; exact h.1, matchesB_take h.2 hen⟩
    · exact absurd h (by simp)
  | .any :: ts, p, e, h, hen => by
    simp only [matchesB] at h ⊢
    split at h
    · next hlt =>
      have hpe : p + 1 ≤ e := matchesB_le h
      have hlt2 : p < (s.take n).length := by
        rw [List.length_take]
        omega
      rw [if_pos hlt2]
      exact matchesB_take h hen
    · exact absurd h (by simp)
  | .opt c :: ts, p, e, h, hen => by
    simp only [matchesB] at h ⊢
    split at h
    · next hlt =>
      split at h
      · next hc =>
        simp only [Bool.or_eq_true] at h
        rcases h with h | h
        · have hpe : p + 1 ≤ e := matchesB_le h
          have hlt2 : p < (s.take n).length := by
            rw [List.length_take]
            omega
          rw [dif_pos hlt2, if_pos (by rw [List.getElem_take]; exact hc)]
          simp only [Bool.or_eq_true]
          exact Or.inl (matchesB_take h hen)
        · by_cases hlt2 : p < (s.take n).length
          · rw [dif_pos hlt2]
            by_cases hc2 : (s.take n)[p] = c
            · rw [if_pos hc2]
              simp only [Bool.or_eq_true]
              exact Or.inr (matchesB_take h hen)
            · rw [if_neg hc2]
              exact matchesB_take h hen
          · rw [dif_neg hlt2]
            exact matchesB_take h hen
      · next hc =>
        by_cases hlt2 : p < (s.take n).length
        · rw [dif_pos hlt2]
          rw [if_neg (by rw [List.getElem_take]; exact hc)]
          exact matchesB_take h hen
        · rw [dif_neg hlt2]
          exact matchesB_take h hen
    · next hlt =>
      have hlt2 : ¬ p < (s.take n).length := by
        rw [List.length_take]
        omega
      rw [dif_neg hlt2]
      exact matchesB_take h hen

theorem matchesB_lt_length {s : List Char} : ∀ {ts : Alt} {p e : Nat},
    matchesB ts s p e = true → p < e → p < s.length
  | [], p, e, h, hpe => by
    simp only [matchesB, beq_iff_eq] at h
    omega
  | .lit c :: ts, p, e, h, _ => by
    simp only [matchesB] at h
    split at h
    · next hl => exact hl
    · exact absurd h (by simp)
  | .cls cs :: ts, p, e, h, _ => by
    simp only [matchesB] at h
    split at h
    · next hl => exact hl
    · exact absurd h (by simp)
  | .any :: ts, p, e, h, _ => by
    simp only [matchesB] at h
    split at h
    · next hl => exact hl
    · exact absurd h (by simp)
  | .opt c :: ts, p, e, h, hpe => by
    simp only [matchesB] at h
    split at h
    · next hl => exact hl
    · next hl => exact matchesB_lt_length h hpe

theorem altMatch_lt {s : List Char} : ∀ {ts : Alt} {p e : Nat},
    (∃ t ∈ ts, rigid t = true) → altMatch ts s p = some e → p < e
  | [], p, e, hex, _ => by simp at hex
  | .lit c :: ts, p, e, _, h => by
    simp only [altMatch] at h
    split at h
    · split at h
      · exact Nat.lt_of_lt_of_le (Nat.lt_succ_self p) (altMatch_le h)
      · exact absurd h (by simp)
    · exact absurd h (by simp)
  | .cls cs :: ts, p, e, _, h => by
    simp only [altMatch] at h
    split at h
    · split at h
      · exact Nat.lt_of_lt_of_le (Nat.lt_succ_self p) (altMatch_le h)
      · exact absurd h (by simp)
    · exact absurd h (by simp)
  | .any :: ts, p, e, _, h => by
    simp only [altMatch] at h
    split at h
    · exact Nat.lt_of_lt_of_le (Nat.lt_succ_self p) (altMatch_le h)
    · exact absurd h (by simp)
  | .opt c :: ts, p, e, hex, h => by
    have hex2 : ∃ t ∈ ts, rigid t = true := by
      rcases hex with ⟨t, ht, hr⟩
      rcases List.mem_cons.1 ht with rfl | ht2
      · simp [rigid] at hr
      · exact ⟨t, ht2, hr⟩
    simp only [altMatch] at h
    split at h
    · split at h
      · rcases heq : altMatch ts s (p + 1) with _ | e₁
        · rw [heq] at h
          exact altMatch_lt hex2 h
        · rw [heq] at h
          simp only [Option.some.injEq] at h
          subst h
          exact Nat.lt_of_lt_of_le (Nat.lt_succ_self p) (altMatch_le heq)
      · exact altMatch_lt hex2 h
    · exact altMatch_lt hex2 h

/-! ### Lemmas about ordered alternation -/

theorem reMatchAt_none {re : RE} {s : List Char} {p : Nat}
    (h : reMatchAt re s p = none) : ∀ alt ∈ re, altMatch alt s p = none := by
  induction re with
  | nil => simp
  | cons a as ih =>
    simp only [reMatchAt] at h
    rcases heq : altMatch a s p with _ | e
    · rw [heq] at h
      intro alt halt
      rcases List.mem_cons.1 halt with rfl | h2
      · exact heq
      · exact ih h alt h2
    · rw [heq] at h
      exact absurd h (by simp)

theorem reMatchAt_some_ex {re : RE} {s : List Char} {p e : Nat}
    (h : reMatchAt re s p = some e) : ∃ alt ∈ re, altMatch alt s p = some e := by
  induction re with
  | nil => simp [reMatchAt] at h
  | cons a as ih =>
    simp only [reMatchAt] at h
    rcases heq : altMatch a s p with _ | e₁
    · rw [heq] at h
      rcases ih h with ⟨alt, hm, he⟩
      exact ⟨alt, List.mem_cons_of_mem _ hm, he⟩
    · rw [heq] at h
      simp only [Option.some.injEq] at h
      subst h
      exact ⟨a, List.mem_cons_self _ _, heq⟩

theorem reMatches_of_reMatchAt {re : RE} {s : List Char} {p e : Nat}
    (h : reMatchAt re s p = some e) : reMatches re s p e = true := by
  rcases reMatchAt_some_ex h with ⟨alt, hm, he⟩
  simp only [reMatches, List.any_eq_true]
  exact ⟨alt, hm, matchesB_of_altMatch he⟩

theorem reMatchAt_isSome_of_alt {re : RE} {s : List Char} {p : Nat} {alt : Alt}
    (hm : alt ∈ re) (hs : (altMatch alt s p).isSome = true) :
    (reMatchAt re s p).isSome = true := by
  induction re with
  | nil => simp at hm
  | cons a as ih =>
    simp only [reMatchAt]
    rcases heq : altMatch a s p with _ | e
    · rcases List.mem_cons.1 hm with rfl | h2
      · rw [heq] at hs
        exact absurd hs (by simp)
      · exact ih h2
    · rfl

theorem reMatchAt_isSome_of_reMatches {re : RE} {s : List Char} {p e : Nat}
    (h : reMatches re s p e = true) : (reMatchAt re s p).isSome = true := by
  simp only [reMatches, List.any_eq_true] at h
  rcases h with ⟨alt, hm, hb⟩
  exact reMatchAt_isSome_of_alt hm (altMatch_isSome_of_matchesB hb)

/-! ### Lemmas about leftmost search (`re.search`) -/

theorem searchAux_some {re : RE} {s : List Char} : ∀ {fuel p : Nat} {m : Nat × Nat},
    searchAux re s fuel p = some m →
    p ≤ m.1 ∧ m.1 ≤ s.length ∧ reMatchAt re s m.1 = some m.2 ∧
      ∀ r, p ≤ r → r < m.1 → reMatchAt re s r = none
  | 0, p, m, h => by simp [searchAux] at h
  | fuel + 1, p, m, h => by
    simp only [searchAux] at h
    split at h
    · next hp =>
      rcases heq : reMatchAt re s p with _ | e
      · rw [heq] at h
        obtain ⟨h1, h2, h3, h4⟩ := searchAux_some h
        refine ⟨by omega, h2, h3, ?_⟩
        intro r hr1 hr2
        rcases Nat.eq_or_lt_of_le hr1 with rfl | hlt
        · exact heq
        · exact h4 r hlt hr2
      · rw [heq] at h
        simp only [Option.some.injEq] at h
        subst h
        exact ⟨Nat.le_refl p, hp, heq, fun r hr1 hr2 => by omega⟩
    · exact absurd h (by simp)

theorem searchAux_none {re : RE} {s : List Char} : ∀ {fuel p : Nat},
    s.length + 1 - p ≤ fuel → searchAux re s fuel p = none →
    ∀ q, p ≤ q → q ≤ s.length → reMatchAt re s q = none
  | 0, p, hf, _, q, hq1, hq2 => by omega
  | fuel + 1, p, hf, h, q, hq1, hq2 => by
    simp only [searchAux] at h
    split at h
    · next hp =>
      rcases heq : reMatchAt re s p with _ | e
      · rw [heq] at h
        rcases Nat.eq_or_lt_of_le hq1 with rfl | hlt
        · exact heq
        · exact searchAux_none (by omega) h q hlt hq2
      · rw [heq] at h
        exact absurd h (by simp)
    · next hp => omega

theorem searchFrom_some {re : RE} {s : List Char} {p : Nat} {m : Nat × Nat}
    (h : searchFrom re s p = some m) :
    p ≤ m.1 ∧ m.1 ≤ s.length ∧ reMatchAt re s m.1 = some m.2 ∧
      ∀ r, p ≤ r → r < m.1 → reMatchAt re s r = none :=
  searchAux_some h

theorem searchFrom_none {re : RE} {s : List Char} {p : Nat}
    (h : searchFrom re s p = none) :
    ∀ q, p ≤ q → q ≤ s.length → reMatchAt re s q = none :=
  searchAux_none (Nat.le_refl _) h

/-! ### Lemmas about non-overlapping iteration (`re.finditer`) -/

theorem finditerAux_sound {re : RE} {s : List Char} : ∀ {fuel p : Nat} {m : Nat × Nat},
    m ∈ finditerAux re s fuel p →
    p ≤ m.1 ∧ m.1 ≤ s.length ∧ reMatchAt re s m.1 = some m.2
  | 0, p, m, h => by simp [finditerAux] at h
  | fuel + 1, p, m, h => by
    simp only [finditerAux] at h
    rcases heq : searchFrom re s p with _ | m₀
    · rw [heq] at h
      simp at h
    · rw [heq] at h
      obtain ⟨h1, h2, h3, _⟩ := searchFrom_some heq
      rcases List.mem_cons.1 h with rfl | h4
      · exact ⟨h1, h2, h3⟩
      · obtain ⟨g1, g2, g3⟩ := finditerAux_sound h4
        exact ⟨by omega, g2, g3⟩

theorem finditerAux_chain {re : RE} {s : List Char} : ∀ (fuel p : Nat),
    List.Chain' (fun m m' => max m.2 (m.1 + 1) ≤ m'.1) (finditerAux re s fuel p)
  | 0, p => by simp [finditerAux]
  | fuel + 1, p => by
    simp only [finditerAux]
    rcases heq : searchFrom re s p with _ | m₀
    · simp
    · rw [List.chain'_cons']
      refine ⟨?_, finditerAux_chain fuel _⟩
      intro y hy
      exact (finditerAux_sound (List.mem_of_mem_head? hy)).1

theorem finditerAux_complete {re : RE} {s : List Char} : ∀ {fuel p q : Nat},
    s.length + 1 - p ≤ fuel → p ≤ q → q ≤ s.length →
    (reMatchAt re s q).isSome = true →
    (∃ m ∈ finditerAux re s fuel p, m.1 = q) ∨
      (∃ m ∈ finditerAux re s fuel p, m.1 < q ∧ q < max m.2 (m.1 + 1))
  | 0, p, q, hf, hpq, hq, _ => by omega
  | fuel + 1, p, q, hf, hpq, hq, hm => by
    rcases heq : searchFrom re s p with _ | m₀
    · rw [searchFrom_none heq q hpq hq] at hm
      exact absurd hm (by simp)
    · obtain ⟨h1, h2, _, h4⟩ := searchFrom_some heq
      simp only [finditerAux]
      rw [heq]
      have hle : m₀.1 ≤ q := by
        by_contra hgt
        push_neg at hgt
        rw [h4 q hpq hgt] at hm
        exact absurd hm (by simp)
      rcases Nat.eq_or_lt_of_le hle with heq2 | hlt
      · exact Or.inl ⟨m₀, List.mem_cons_self _ _, heq2⟩
      · by_cases hin : q < max m₀.2 (m₀.1 + 1)
        · exact Or.inr ⟨m₀, List.mem_cons_self _ _, hlt, hin⟩
        · push_neg at hin
          rcases finditerAux_complete
              (show s.length + 1 - max m₀.2 (m₀.1 + 1) ≤ fuel by omega) hin hq hm with
            ⟨m, hm1, hm2⟩ | ⟨m, hm1, hm2⟩
          · exact Or.inl ⟨m, List.mem_cons_of_mem _ hm1, hm2⟩
          · exact Or.inr ⟨m, List.mem_cons_of_mem _ hm1, hm2⟩

theorem finditer_sound {re : RE} {s : List Char} {p : Nat} {m : Nat × Nat}
    (h : m ∈ finditer re s p) :
    p ≤ m.1 ∧ m.1 ≤ s.length ∧ reMatchAt re s m.1 = some m.2 :=
  finditerAux_sound h

theorem finditer_chain (re : RE) (s : List Char) (p : Nat) :
    List.Chain' (fun m m' => max m.2 (m.1 + 1) ≤ m'.1) (finditer re s p) :=
  finditerAux_chain _ _

theorem finditer_complete {re : RE} {s : List Char} {p q : Nat}
    (hpq : p ≤ q) (hq : q ≤ s.length) (hm : (reMatchAt re s q).isSome = true) :
    (∃ m ∈ finditer re s p, m.1 = q) ∨
      (∃ m ∈ finditer re s p, m.1 < q ∧ q < max m.2 (m.1 + 1)) :=
  finditerAux_complete (Nat.le_refl _) hpq hq hm

/-! ### Character-level characterisation of the start and stop patterns -/

theorem altMatch_stopAlt1 {s : List Char} {i e : Nat} :
    altMatch [.lit 'T', .lit 'A', .cls ['G', 'A']] s i = some e ↔
    (i + 2 < s.length ∧ s.getD i 'N' = 'T' ∧ s.getD (i + 1) 'N' = 'A' ∧
      (s.getD (i + 2) 'N' = 'G' ∨ s.getD (i + 2) 'N' = 'A') ∧ e = i + 3) := by
  simp only [altMatch]
  split
  · rename_i h1
    rw [List.getD_eq_getElem s 'N' h1]
    split
    · rename_i hc1
      split
      · rename_i h2
        rw [List.getD_eq_getElem s 'N' h2]
        split
        · rename_i hc2
          split
          · rename_i h3
            rw [List.getD_eq_getElem s 'N' h3]
            split
            · rename_i hc3
              simp only [List.mem_cons, List.not_mem_nil, or_false] at hc3
              simp [hc1, hc2, hc3, h3] <;> omega
            · rename_i hc3
              simp only [List.mem_cons, List.not_mem_nil, or_false] at hc3
              simp [hc1, hc2, hc3] <;> omega
          · rename_i h3
            simp <;> omega
        · rename_i hc2
          simp [hc1, hc2] <;> omega
      · rename_i h2
        simp <;> omega
    · rename_i hc1
      simp [hc1] <;> omega
  · rename_i h1
    simp <;> omega

theorem altMatch_stopAlt2 {s : List Char} {i e : Nat} :
    altMatch [.lit 'T', .lit 'G', .lit 'A'] s i = some e ↔
    (i + 2 < s.length ∧ s.getD i 'N' = 'T' ∧ s.getD (i + 1) 'N' = 'G' ∧
      s.getD (i + 2) 'N' = 'A' ∧ e = i + 3) := by
  simp only [altMatch]
  split
  · rename_i h1
    rw [List.getD_eq_getElem s 'N' h1]
    split
    · rename_i hc1
      split
      · rename_i h2
        rw [List.getD_eq_getElem s 'N' h2]
        split
        · rename_i hc2
          split
          · rename_i h3
            rw [List.getD_eq_getElem s 'N' h3]
            split
            · rename_i hc3
              simp [hc1, hc2, hc3, h3] <;> omega
            · rename_i hc3
              simp [hc1, hc2, hc3] <;> omega
          · rename_i h3
            simp <;> omega
        · rename_i hc2
          simp [hc1, hc2] <;> omega
      · rename_i h2
        simp <;> omega
    · rename_i hc1
      simp [hc1] <;> omega
  · rename_i h1
    simp <;> omega

theorem altMatch_startAlt1 {s : List Char} {i e : Nat} :
    altMatch [.lit 'A', .lit 'T', .cls ['T', 'G']] s i = some e ↔
    (i + 2 < s.length ∧ s.getD i 'N' = 'A' ∧ s.getD (i + 1) 'N' = 'T' ∧
      (s.getD (i + 2) 'N' = 'T' ∨ s.getD (i + 2) 'N' = 'G') ∧ e = i + 3) := by
  simp only [altMatch]
  split
  · rename_i h1
    rw [List.getD_eq_getElem s 'N' h1]
    split
    · rename_i hc1
      split
      · rename_i h2
        rw [List.getD_eq_getElem s 'N' h2]
        split
        · rename_i hc2
          split
          · rename_i h3
            rw [List.getD_eq_getElem s 'N' h3]
            split
            · rename_i hc3
              simp only [List.mem_cons, List.not_mem_nil, or_false] at hc3
              simp [hc1, hc2, hc3, h3] <;> omega
            · rename_i hc3
              simp only [List.mem_cons, List.not_mem_nil, or_false] at hc3
              simp [hc1, hc2, hc3] <;> omega
          · rename_i h3
            simp <;> omega
        · rename_i hc2
          simp [hc1, hc2] <;> omega
      · rename_i h2
        simp <;> omega
    · rename_i hc1
      simp [hc1] <;> omega
  · rename_i h1
    simp <;> omega

theorem altMatch_startAlt2 {s : List Char} {i e : Nat} :
    altMatch [.cls ['A', 'T', 'C', 'G'], .lit 'T', .lit 'G'] s i = some e ↔
    (i + 2 < s.length ∧
      (s.getD i 'N' = 'A' ∨ s.getD i 'N' = 'T' ∨ s.getD i 'N' = 'C' ∨ s.getD i 'N' = 'G') ∧
      s.getD (i + 1) 'N' = 'T' ∧ s.getD (i + 2) 'N' = 'G' ∧ e = i + 3) := by
  simp only [altMatch]
  split
  · rename_i h1
    rw [List.getD_eq_getElem s 'N' h1]
    split
    · rename_i hc1
      simp only [List.mem_cons, List.not_mem_nil, or_false] at hc1
      split
      · rename_i h2
        rw [List.getD_eq_getElem s 'N' h2]
        split
        · rename_i hc2
          split
          · rename_i h3
            rw [List.getD_eq_getElem s 'N' h3]
            split
            · rename_i hc3
              simp [hc1, hc2, hc3, h3] <;> omega
            · rename_i hc3
              simp [hc1, hc2, hc3] <;> omega
          · rename_i h3
            simp <;> omega
        · rename_i hc2
          simp [hc1, hc2] <;> omega
      · rename_i h2
        simp <;> omega
    · rename_i hc1
      simp only [List.mem_cons, List.not_mem_nil, or_false] at hc1
      simp [hc1] <;> omega
  · rename_i h1
    simp <;> omega

theorem stopRE_match_iff {s : List Char} {i : Nat} :
    (reMatchAt stopRE s i).isSome = true ↔
      (i + 3 ≤ s.length ∧ tripleAt s i ∈ stopCodons) := by
  constructor
  · intro h
    rcases Option.isSome_iff_exists.1 h with ⟨e, he⟩
    rcases reMatchAt_some_ex he with ⟨alt, hm, ha⟩
    simp only [stopRE, List.mem_cons, List.not_mem_nil, or_false] at hm
    rcases hm with rfl | rfl
    · obtain ⟨h1, h2, h3, h4, _⟩ := altMatch_stopAlt1.1 ha
      refine ⟨by omega, ?_⟩
      simp only [tripleAt, stopCodons, List.mem_cons, List.not_mem_nil, or_false,
        List.cons.injEq, and_true]
      rcases h4 with h4 | h4
      · exact Or.inr (Or.inl ⟨h2, h3, h4⟩)
      · exact Or.inl ⟨h2, h3, h4⟩
    · obtain ⟨h1, h2, h3, h4, _⟩ := altMatch_stopAlt2.1 ha
      refine ⟨by omega, ?_⟩
      simp only [tripleAt, stopCodons, List.mem_cons, List.not_mem_nil, or_false,
        List.cons.injEq, and_true]
      exact Or.inr (Or.inr ⟨h2, h3, h4⟩)
  · rintro ⟨hlen, htr⟩
    simp only [tripleAt, stopCodons, List.mem_cons, List.not_mem_nil, or_false,
      List.cons.injEq, and_true] at htr
    rcases htr with ⟨h1, h2, h3⟩ | ⟨h1, h2, h3⟩ | ⟨h1, h2, h3⟩
    · have ha := (altMatch_stopAlt1 (e := i + 3)).mpr ⟨by omega, h1, h2, Or.inr h3, rfl⟩
      have hs : (altMatch [RTok.lit 'T', RTok.lit 'A', RTok.cls ['G', 'A']] s i).isSome = true := by
        rw [ha]
        rfl
      exact reMatchAt_isSome_of_alt (by simp [stopRE]) hs
    · have ha := (altMatch_stopAlt1 (e := i + 3)).mpr ⟨by omega, h1, h2, Or.inl h3, rfl⟩
      have hs : (altMatch [RTok.lit 'T', RTok.lit 'A', RTok.cls ['G', 'A']] s i).isSome = true := by
        rw [ha]
        rfl
      exact reMatchAt_isSome_of_alt (by simp [stopRE]) hs
    · have ha := (altMatch_stopAlt2 (e := i + 3)).mpr ⟨by omega, h1, h2, h3, rfl⟩
      have hs : (altMatch [RTok.lit 'T', RTok.lit 'G', RTok.lit 'A'] s i).isSome = true := by
        rw [ha]
        rfl
      exact reMatchAt_isSome_of_alt (by simp [stopRE]) hs

theorem stopRE_match_end {s : List Char} {i e : Nat}
    (h : reMatchAt stopRE s i = some e) : e = i + 3 := by
  rcases reMatchAt_some_ex h with ⟨alt, hm, ha⟩
  simp only [stopRE, List.mem_cons, List.not_mem_nil, or_false] at hm
  rcases hm with rfl | rfl
  · exact (altMatch_stopAlt1.1 ha).2.2.2.2
  · exact (altMatch_stopAlt2.1 ha).2.2.2.2

theorem startRE_match_spec {s : List Char} {i e : Nat}
    (h : reMatchAt startRE s i = some e) :
    e = i + 3 ∧ i + 3 ≤ s.length ∧ tripleAt s i ∈ startCodons := by
  rcases reMatchAt_some_ex h with ⟨alt, hm, ha⟩
  simp only [startRE, List.mem_cons, List.not_mem_nil, or_false] at hm
  rcases hm with rfl | rfl
  · obtain ⟨h1, h2, h3, h4, h5⟩ := altMatch_startAlt1.1 ha
    refine ⟨h5, by omega, ?_⟩
    simp only [tripleAt, startCodons, List.mem_cons, List.not_mem_nil, or_false,
      List.cons.injEq, and_true]
    rcases h4 with h4 | h4
    · exact Or.inl ⟨h2, h3, h4⟩
    · exact Or.inr (Or.inl ⟨h2, h3, h4⟩)
  · obtain ⟨h1, h2, h3, h4, h5⟩ := altMatch_startAlt2.1 ha
    refine ⟨h5, by omega, ?_⟩
    simp only [tripleAt, startCodons, List.mem_cons, List.not_mem_nil, or_false,
      List.cons.injEq, and_true]
    rcases h2 with h2 | h2 | h2 | h2
    · exact Or.inr (Or.inl ⟨h2, h3, h4⟩)
    · exact Or.inr (Or.inr (Or.inr (Or.inl ⟨h2, h3, h4⟩)))
    · exact Or.inr (Or.inr (Or.inr (Or.inr ⟨h2, h3, h4⟩)))
    · exact Or.inr (Or.inr (Or.inl ⟨h2, h3, h4⟩))

/-- Two stop-codon occurrences can never overlap: the second and third
characters of a stop codon are in {A, G}, but a stop codon starts with T. -/
theorem stop_no_overlap {s : List Char} {i j : Nat}
    (hi : tripleAt s i ∈ stopCodons) (hj : tripleAt s j ∈ stopCodons)
    (hij : i < j) (hji : j < i + 3) : False := by
  simp only [tripleAt, stopCodons, List.mem_cons, List.not_mem_nil, or_false,
    List.cons.injEq, and_true] at hi hj
  have hjT : s.getD j 'N' = 'T' := by
    rcases hj with ⟨h, _⟩ | ⟨h, _⟩ | ⟨h, _⟩ <;> exact h
  have hcase : j = i + 1 ∨ j = i + 2 := by omega
  rcases hcase with rfl | rfl
  · rcases hi with ⟨_, h2, _⟩ | ⟨_, h2, _⟩ | ⟨_, h2, _⟩ <;> rw [h2] at hjT <;>
      exact absurd hjT (by decide)
  · rcases hi with ⟨_, _, h3⟩ | ⟨_, _, h3⟩ | ⟨_, _, h3⟩ <;> rw [h3] at hjT <;>
      exact absurd hjT (by decide)

/-! ### Specifications of `find_start`, `find_stop` and `has_shine_dalgarno` -/

theorem find_start_spec {s : List Char} {pos cp : Nat}
    (h : find_start s pos s.length = some cp) :
    pos ≤ cp ∧ cp + 3 ≤ s.length ∧ tripleAt s cp ∈ startCodons := by
  rw [find_start, List.take_length] at h
  rcases heq : searchFrom startRE s pos with _ | m
  · rw [heq] at h
    simp at h
  · rw [heq] at h
    simp only [Option.map_some', Option.some.injEq] at h
    subst h
    obtain ⟨h1, _, h3, _⟩ := searchFrom_some heq
    obtain ⟨_, hlen, htr⟩ := startRE_match_spec h3
    exact ⟨h1, hlen, htr⟩

theorem find_stop_spec {s : List Char} {c p : Nat}
    (h : find_stop s c = some p) :
    c ≤ p ∧ (p - c) % 3 = 0 ∧ p + 3 ≤ s.length ∧ tripleAt s p ∈ stopCodons := by
  rw [find_stop] at h
  rcases heq : (finditer stopRE s c).find? (fun m => (m.1 - c) % 3 == 0) with _ | m
  · rw [heq] at h
    simp at h
  · rw [heq] at h
    simp only [Option.map_some', Option.some.injEq] at h
    subst h
    have hpred := List.find?_some heq
    have hmem := List.mem_of_find?_eq_some heq
    obtain ⟨h1, _, h3⟩ := finditer_sound hmem
    have h5 := stopRE_match_iff.1 (by rw [h3]; rfl)
    simp only [beq_iff_eq] at hpred
    exact ⟨h1, hpred, h5.1, h5.2⟩

theorem find?_min_of_sorted {l : List (Nat × Nat)} {q : (Nat × Nat) → Bool} {m : Nat × Nat}
    (hs : List.Pairwise (fun a b => a.1 < b.1) l)
    (hf : List.find? q l = some m) :
    ∀ m₂ ∈ l, m₂.1 < m.1 → q m₂ = false := by
  induction l with
  | nil => simp at hf
  | cons a l ih =>
    rw [List.find?_cons] at hf
    rcases List.pairwise_cons.1 hs with ⟨ha, hl⟩
    cases hqa : q a
    · rw [hqa] at hf
      intro m₂ hm₂ hlt
      rcases List.mem_cons.1 hm₂ with rfl | hm₂
      · exact hqa
      · exact ih hl hf m₂ hm₂ hlt
    · rw [hqa] at hf
      simp only [Option.some.injEq] at hf
      subst hf
      intro m₂ hm₂ hlt
      rcases List.mem_cons.1 hm₂ with rfl | hm₂
      · omega
      · exact absurd hlt (by have := ha m₂ hm₂; omega)

theorem finditer_pairwise (re : RE) (s : List Char) (p : Nat) :
    List.Pairwise (fun a b : Nat × Nat => a.1 < b.1) (finditer re s p) := by
  haveI : IsTrans (Nat × Nat) (fun a b : Nat × Nat => a.1 < b.1) :=
    ⟨fun a b c h1 h2 => Nat.lt_trans h1 h2⟩
  refine List.chain'_iff_pairwise.1 ?_
  exact (finditer_chain re s p).imp fun a b h => by omega

/-- Because stop-codon occurrences never overlap, the non-overlapping
enumeration of `finditer` cannot skip one: every occurrence at or after the
scan start appears in the list. -/
theorem find_stop_mem_of_occ {s : List Char} {c q : Nat}
    (hcq : c ≤ q) (hq : q + 3 ≤ s.length) (htr : tripleAt s q ∈ stopCodons) :
    ∃ m ∈ finditer stopRE s c, m.1 = q := by
  have hm : (reMatchAt stopRE s q).isSome = true := stopRE_match_iff.2 ⟨hq, htr⟩
  rcases finditer_complete hcq (by omega) hm with h | ⟨m, hmem, h1, h2⟩
  · exact h
  · obtain ⟨_, _, h3⟩ := finditer_sound hmem
    have he := stopRE_match_end h3
    have htr2 := (stopRE_match_iff.1 (by rw [h3]; rfl)).2
    rw [he] at h2
    exact (stop_no_overlap htr2 htr h1 (by omega)).elim

/-- `pattern.search` on the truncated subject `s.take n` succeeds exactly
when the pattern has an occurrence lying entirely inside `[lo, n)`
(for a pattern all of whose alternatives consume at least one character). -/
theorem searchFrom_take_isSome_iff {re : RE} {s : List Char} {lo n : Nat}
    (hc : ∀ alt ∈ re, ∃ t ∈ alt, rigid t = true) :
    (searchFrom re (s.take n) lo).isSome = true ↔
      ∃ p e, lo ≤ p ∧ p < e ∧ e ≤ n ∧ reMatches re s p e = true := by
  constructor
  · intro h
    rcases Option.isSome_iff_exists.1 h with ⟨m, hm⟩
    obtain ⟨h1, h2, h3, _⟩ := searchFrom_some hm
    rcases reMatchAt_some_ex h3 with ⟨alt, hmem, ha⟩
    have hee : m.2 ≤ (s.take n).length := altMatch_le_length h2 ha
    have hb : matchesB alt (s.take n) m.1 m.2 = true := matchesB_of_altMatch ha
    have hlt : m.1 < m.2 := altMatch_lt (hc alt hmem) ha
    refine ⟨m.1, m.2, h1, hlt, ?_, ?_⟩
    · rw [List.length_take] at hee
      omega
    · simp only [reMatches, List.any_eq_true]
      exact ⟨alt, hmem, matchesB_of_take hb⟩
  · rintro ⟨p, e, hlo, hpe, hen, hre⟩
    simp only [reMatches, List.any_eq_true] at hre
    rcases hre with ⟨alt, hmem, hb⟩
    have hpl : p < s.length := matchesB_lt_length hb hpe
    have hb2 : matchesB alt (s.take n) p e = true := matchesB_take hb hen
    have hsome := reMatchAt_isSome_of_alt hmem (altMatch_isSome_of_matchesB hb2)
    rcases hs : searchFrom re (s.take n) lo with _ | m
    · have hnone := searchFrom_none hs p hlo (by rw [List.length_take]; omega)
      rw [hnone] at hsome
      exact absurd hsome (by simp)
    · rfl

theorem shineRE_consuming : ∀ alt ∈ shineRE, ∃ t ∈ alt, rigid t = true := by decide

/-! ### The loop invariant of `predict_genes` -/

theorem stateOK_step {cfg : Cfg} {s : List Char} {st : ScanState}
    (h : stateOK cfg s st) : stateOK cfg s (scanStep cfg s st) := by
  cases st with
  | done genes => exact h
  | typeError genes => exact h
  | running pos genes =>
    obtain ⟨⟨hok, hchain⟩, hlast⟩ := h
    simp only [scanStep]
    split
    · next hcond =>
      split
      · next hfs => exact ⟨hok, hchain⟩
      · next cp hfs =>
        obtain ⟨hcp1, hcp2, hcp3⟩ := find_start_spec hfs
        split
        · next hcp0 =>
          subst hcp0
          exact ⟨⟨hok, hchain⟩, fun g hg => by have := hlast g hg; omega⟩
        · next hcp0 =>
          split
          · next hfp =>
            exact ⟨⟨hok, hchain⟩, fun g hg => by have := hlast g hg; omega⟩
          · next stp hfp =>
            obtain ⟨hst1, hst2, hst3, hst4⟩ := find_stop_spec hfp
            split
            · next hstp0 =>
              exact ⟨⟨hok, hchain⟩, fun g hg => by have := hlast g hg; omega⟩
            · next hstp0 =>
              split
              · next hglen =>
                split
                · next hshine =>
                  refine ⟨⟨?_, ?_⟩, ?_⟩
                  · intro g hg
                    rcases List.mem_append.1 hg with hg | hg
                    · exact hok g hg
                    · simp only [List.mem_singleton] at hg
                      subst hg
                      exact ⟨cp, stp, rfl, by omega, hst1, hst3, hst2, hglen, hcp3, hst4⟩
                  · rw [List.chain'_append]
                    refine ⟨hchain, List.chain'_singleton _, ?_⟩
                    intro x hx y hy
                    simp only [List.head?_cons, Option.mem_def, Option.some.injEq] at hy
                    subst hy
                    have := hlast x hx
                    omega
                  · intro g hg
                    rw [List.getLast?_concat] at hg
                    simp only [Option.some.injEq] at hg
                    subst hg
                    omega
                · next hshine =>
                  exact ⟨⟨hok, hchain⟩, fun g hg => by have := hlast g hg; omega⟩
              · next hglen =>
                exact ⟨⟨hok, hchain⟩, fun g hg => by have := hlast g hg; omega⟩
    · next hcond => exact ⟨hok, hchain⟩

theorem stateOK_run {cfg : Cfg} {s : List Char} : ∀ (fuel : Nat) {st : ScanState},
    stateOK cfg s st → stateOK cfg s (runScan cfg s fuel st)
  | 0, _, h => h
  | fuel + 1, _, h => stateOK_run fuel (stateOK_step h)

theorem stateOK_init (cfg : Cfg) (s : List Char) : stateOK cfg s (.running 0 []) :=
  ⟨⟨by simp, by simp⟩, by simp⟩

theorem predict_genes_invariant {cfg : Cfg} {s : List Char} {fuel : Nat}
    {genes : List (Nat × Nat)} (h : predict_genes cfg s fuel = some genes) :
    genesOK cfg s genes := by
  rw [predict_genes] at h
  have hrun := stateOK_run fuel (stateOK_init cfg s)
  rcases hr : runScan cfg s fuel (.running 0 []) with ⟨pos, g⟩ | g | g <;> rw [hr] at h hrun
  · exact absurd h (by simp)
  · simp only [Option.some.injEq] at h
    subst h
    exact hrun
  · exact absurd h (by simp)

theorem gapChain_pairwise {gap : Nat} : ∀ {l : List (Nat × Nat)},
    (∀ g ∈ l, g.1 < g.2) → List.Chain' (fun x y => x.2 + gap ≤ y.1) l →
    List.Pairwise (fun x y => x.1 < y.1) l
  | [], _, _ => List.Pairwise.nil
  | [g], _, _ => by simp
  | g :: g₂ :: l, hv, hc => by
    rw [List.chain'_cons] at hc
    have ih := gapChain_pairwise (fun x hx => hv x (List.mem_cons_of_mem _ hx)) hc.2
    refine List.pairwise_cons.2 ⟨?_, ih⟩
    intro x hx
    have hg : g.1 < g.2 := hv g (List.mem_cons_self _ _)
    have hgap := hc.1
    rcases List.mem_cons.1 hx with rfl | hx
    · omega
    · have hx2 := (List.pairwise_cons.1 ih).1 x hx
      omega

/-! ### Reverse complement -/

theorem complementBase_eq_some {c : Char}
    (h : c = 'A' ∨ c = 'C' ∨ c = 'G' ∨ c = 'T') :
    complementBase c = some (complChar c) := by
  rcases h with rfl | rfl | rfl | rfl <;> rfl

theorem complChar_valid {c : Char} (h : c = 'A' ∨ c = 'C' ∨ c = 'G' ∨ c = 'T') :
    (complChar c = 'A' ∨ complChar c = 'C' ∨ complChar c = 'G' ∨ complChar c = 'T') ∧
      complChar (complChar c) = c := by
  rcases h with rfl | rfl | rfl | rfl <;> exact ⟨by decide, by decide⟩

theorem mapComplement_eq_map {l : List Char}
    (h : ∀ c ∈ l, c = 'A' ∨ c = 'C' ∨ c = 'G' ∨ c = 'T') :
    mapComplement l = some (l.map complChar) := by
  induction l with
  | nil => rfl
  | cons c cs ih =>
    have hc := complementBase_eq_some (h c (List.mem_cons_self _ _))
    have hcs := ih fun x hx => h x (List.mem_cons_of_mem _ hx)
    simp only [mapComplement, hc, hcs, List.map_cons]

theorem map_complChar_twice {l : List Char}
    (h : ∀ c ∈ l, c = 'A' ∨ c = 'C' ∨ c = 'G' ∨ c = 'T') :
    (l.map complChar).map complChar = l := by
  induction l with
  | nil => rfl
  | cons c cs ih =>
    simp only [List.map_cons, List.cons.injEq]
    exact ⟨(complChar_valid (h c (List.mem_cons_self _ _))).2,
      ih fun x hx => h x (List.mem_cons_of_mem _ hx)⟩

/-! ### Claim theorems -/

/-- C1 (code bug): the coordinate remap that `main` applies to a
reverse-strand Gene Interval `(a, b)` — `gene.reverse()` followed by the
swapping simultaneous assignment — computes `(N - a + 1, N - b + 1)`, a
DECREASING pair, not the increasing `(N - b + 1, N - a + 1)` that the
specification states; e.g. with `N = 10`, `(2, 7)` is remapped to `(9, 4)`
instead of `(4, 9)`. -/
theorem remap_reverse_gene_flips_order :
    (∀ n a b : Nat, remapReverseGene n (a, b) = (n - a + 1, n - b + 1)) ∧
      remapReverseGene 10 (2, 7) = (9, 4) ∧
      remapReverseGene 10 (2, 7) ≠ (10 - 7 + 1, 10 - 2 + 1) :=
  ⟨fun _ _ _ => rfl, rfl, by decide⟩

/-- C2 (code bug): when `find_start` returns `None` during a scan step
(here: the sequence `AAAAA`, which contains no start codon, with
`min_gap = 1`), `predict_genes` does not terminate the loop and return the
accumulated genes — the Python truthiness test `if current_position:` skips
the body and the next evaluation of the loop condition computes
`len(sequence) - None`, raising `TypeError` (the `typeError` state); so the
function never returns a list. -/
theorem find_start_none_raises_type_error :
    ∀ fuel : Nat,
      runScan ⟨50, 16, 1⟩ seqY (fuel + 1) (.running 0 []) = .typeError [] ∧
      predict_genes ⟨50, 16, 1⟩ seqY (fuel + 1) = none := by
  have hstep : scanStep ⟨50, 16, 1⟩ seqY (.running 0 []) = .typeError [] := by decide
  have habs : ∀ fuel : Nat,
      runScan ⟨50, 16, 1⟩ seqY fuel (.typeError []) = .typeError [] := by
    intro fuel
    induction fuel with
    | zero => rfl
    | succ n ih => exact ih
  intro fuel
  have hrun : runScan ⟨50, 16, 1⟩ seqY (fuel + 1) (.running 0 []) = .typeError [] := by
    simp only [runScan, hstep]
    exact habs fuel
  refine ⟨hrun, ?_⟩
  rw [predict_genes, hrun]

/-- C3 (code bug): `predict_genes` does not terminate on every sequence;
when a start codon occurs at position 0 (sequence `ATGAAATAA`, `min_gap = 1`)
the truthiness test `if current_position:` treats the returned position `0`
as falsy, the cursor never advances, and the loop state is a fixpoint: after
any number of iterations the scan is still `running 0 []`, and
`predict_genes` never produces a result. -/
theorem start_codon_at_zero_loops_forever :
    ∀ fuel : Nat,
      runScan ⟨5, 16, 1⟩ seqX fuel (.running 0 []) = .running 0 [] ∧
      predict_genes ⟨5, 16, 1⟩ seqX fuel = none := by
  have hstep : scanStep ⟨5, 16, 1⟩ seqX (.running 0 []) = .running 0 [] := by decide
  intro fuel
  induction fuel with
  | zero => exact ⟨rfl, rfl⟩
  | succ n ih =>
    have hrun : runScan ⟨5, 16, 1⟩ seqX (n + 1) (.running 0 []) = .running 0 [] := by
      simp only [runScan, hstep]
      exact ih.1
    refine ⟨hrun, ?_⟩
    rw [predict_genes, hrun]

/-- C4 counterexample: the Pattern Matcher's iterate (Python `finditer`) is
non-overlapping: on the claim's own example — pattern `GG.GG` against
`GGAGGAGG` — it yields only the match at start 0, although an occurrence
beginning at 3 (inside the first match) exists; the claimed output `[0, 3]`
is not produced. -/
theorem finditer_overlap_counterexample :
    (finditer ggxggRE seqG 0).map Prod.fst = [0] ∧
      reMatches ggxggRE seqG 3 8 = true ∧
      (finditer ggxggRE seqG 0).map Prod.fst ≠ [0, 3] :=
  ⟨by decide, by decide, by decide⟩

/-- C4 amended: `iterate(pattern, sequence, from_pos)` produces matches at
or after `from_pos` in strictly increasing start order, but resumes after
the end of each match, so it is a non-overlapping enumeration: every
occurrence position at or after `from_pos` is either yielded or begins
strictly inside a previously yielded match; in particular for `GG.GG`
against `GGAGGAGG` only the hit at start 0 is yielded. -/
theorem finditer_nonoverlapping_enumeration (re : RE) (s : List Char) (p₀ : Nat) :
    (∀ m ∈ finditer re s p₀, p₀ ≤ m.1 ∧ reMatchAt re s m.1 = some m.2) ∧
    List.Pairwise (fun a b : Nat × Nat => a.1 < b.1) (finditer re s p₀) ∧
    List.Chain' (fun m n => max m.2 (m.1 + 1) ≤ n.1) (finditer re s p₀) ∧
    (∀ q, p₀ ≤ q → q ≤ s.length → (reMatchAt re s q).isSome = true →
      (∃ m ∈ finditer re s p₀, m.1 = q) ∨
        (∃ m ∈ finditer re s p₀, m.1 < q ∧ q < max m.2 (m.1 + 1))) ∧
    (finditer ggxggRE seqG 0).map Prod.fst = [0] := by
  refine ⟨?_, finditer_pairwise re s p₀, finditer_chain re s p₀, ?_, by decide⟩
  · intro m hm
    obtain ⟨h1, _, h3⟩ := finditer_sound hm
    exact ⟨h1, h3⟩
  · intro q h1 h2 h3
    exact finditer_complete h1 h2 h3

/-- Witness for the amended C4: applying the enumeration property to the
concrete subject `GGAGGAGG` at position 0. -/
theorem finditer_nonoverlapping_enumeration_witness :
    (∃ m ∈ finditer ggxggRE seqG 0, m.1 = 0) ∨
      (∃ m ∈ finditer ggxggRE seqG 0, m.1 < 0 ∧ 0 < max m.2 (m.1 + 1)) :=
  (finditer_nonoverlapping_enumeration ggxggRE seqG 0).2.2.2.1 0 (by decide)
    (by decide) (by decide)

/-- C5: every Gene Interval `(a, b)` returned by `predict_genes` satisfies
`1 ≤ a < b ≤ len(s)`, `(b - a + 1) % 3 = 0`, and `b - a + 1 > min_gene_len`
strictly. -/
theorem predicted_genes_well_formed (cfg : Cfg) (s : List Char) (fuel : Nat)
    (genes : List (Nat × Nat)) (h : predict_genes cfg s fuel = some genes) :
    ∀ g ∈ genes, 1 ≤ g.1 ∧ g.1 < g.2 ∧ g.2 ≤ s.length ∧
      (g.2 - g.1 + 1) % 3 = 0 ∧ cfg.min_gene_len < g.2 - g.1 + 1 := by
  intro g hg
  obtain ⟨hok, _⟩ := predict_genes_invariant h
  obtain ⟨c, t, rfl, h1, h2, h3, h4, h5, _, _⟩ := hok g hg
  refine ⟨?_, ?_, ?_, ?_, ?_⟩
  · show 1 ≤ c + 1
    omega
  · show c + 1 < t + 3
    omega
  · exact h3
  · show (t + 3 - (c + 1) + 1) % 3 = 0
    omega
  · show cfg.min_gene_len < t + 3 - (c + 1) + 1
    omega

/-- Witness for C5: the concrete sequence `seqW` yields the Gene Interval
`(17, 22)`, which satisfies all the stated bounds. -/
theorem predicted_genes_well_formed_witness :
    predict_genes ⟨5, 16, 1⟩ seqW 2 = some [(17, 22)] ∧
      (1 ≤ 17 ∧ 17 < 22 ∧ 22 ≤ seqW.length ∧ (22 - 17 + 1) % 3 = 0 ∧ 5 < 22 - 17 + 1) := by
  refine ⟨by decide, ?_⟩
  have := predicted_genes_well_formed ⟨5, 16, 1⟩ seqW 2 [(17, 22)] (by decide)
    (17, 22) (by decide)
  simpa using this

/-- C6: the list of Gene Intervals returned by one strand scan of
`predict_genes` is strictly increasing in the start coordinate, and any two
consecutive intervals `(a, b)`, `(a', b')` satisfy `b + min_gap ≤ a'`. -/
theorem predicted_genes_ordered_with_gap (cfg : Cfg) (s : List Char) (fuel : Nat)
    (genes : List (Nat × Nat)) (h : predict_genes cfg s fuel = some genes) :
    List.Pairwise (fun x y : Nat × Nat => x.1 < y.1) genes ∧
      List.Chain' (fun x y : Nat × Nat => x.2 + cfg.min_gap ≤ y.1) genes := by
  obtain ⟨hok, hchain⟩ := predict_genes_invariant h
  refine ⟨gapChain_pairwise ?_ hchain, hchain⟩
  intro g hg
  obtain ⟨c, t, rfl, _, h2, _, _, _, _, _⟩ := hok g hg
  show c + 1 < t + 3
  omega

/-- Witness for C6: `seqW2` yields the two Gene Intervals `(17, 22)` and
`(39, 44)`: starts strictly increase and `22 + 1 ≤ 39`. -/
theorem predicted_genes_ordered_with_gap_witness :
    predict_genes ⟨5, 16, 1⟩ seqW2 3 = some [(17, 22), (39, 44)] ∧
      List.Pairwise (fun x y : Nat × Nat => x.1 < y.1) [((17 : Nat), (22 : Nat)), (39, 44)] ∧
      List.Chain' (fun x y : Nat × Nat => x.2 + 1 ≤ y.1) [((17 : Nat), (22 : Nat)), (39, 44)] := by
  refine ⟨by decide, ?_⟩
  have := predicted_genes_ordered_with_gap ⟨5, 16, 1⟩ seqW2 3 [(17, 22), (39, 44)] (by decide)
  simpa using this

/-- C7: `find_stop` returns the smallest position `p ≥ from_pos` at which a
stop codon (TAA, TAG or TGA) occurs in frame (`(p - from_pos) % 3 = 0`), and
`none` exactly when no in-frame stop-codon occurrence exists up to the end
of the sequence — the non-overlapping enumeration cannot skip one, because
stop-codon occurrences never overlap. -/
theorem find_stop_first_in_frame (s : List Char) (c : Nat) :
    (∀ p, find_stop s c = some p →
      c ≤ p ∧ p + 3 ≤ s.length ∧ tripleAt s p ∈ stopCodons ∧ (p - c) % 3 = 0 ∧
        ∀ q, c ≤ q → q < p → q + 3 ≤ s.length → tripleAt s q ∈ stopCodons →
          (q - c) % 3 ≠ 0) ∧
    (find_stop s c = none →
      ∀ q, c ≤ q → q + 3 ≤ s.length → tripleAt s q ∈ stopCodons → (q - c) % 3 ≠ 0) := by
  constructor
  · intro p hp
    obtain ⟨h1, h2, h3, h4⟩ := find_stop_spec hp
    refine ⟨h1, h3, h4, h2, ?_⟩
    intro q hq1 hq2 hq3 hq4
    obtain ⟨m₂, hm₂, hqeq⟩ := find_stop_mem_of_occ hq1 hq3 hq4
    rw [find_stop] at hp
    rcases heq : (finditer stopRE s c).find? (fun m => (m.1 - c) % 3 == 0) with _ | m
    · rw [heq] at hp
      simp at hp
    · rw [heq] at hp
      simp only [Option.map_some', Option.some.injEq] at hp
      have hmin := find?_min_of_sorted (finditer_pairwise stopRE s c) heq m₂ hm₂ (by omega)
      simp only [beq_eq_false_iff_ne, ne_eq] at hmin
      rw [← hqeq]
      exact hmin
  · intro hn q hq1 hq2 hq3
    rw [find_stop] at hn
    rcases heq : (finditer stopRE s c).find? (fun m => (m.1 - c) % 3 == 0) with _ | m
    · have hall := List.find?_eq_none.1 heq
      obtain ⟨m₂, hm₂, hqeq⟩ := find_stop_mem_of_occ hq1 hq2 hq3
      have hfalse := hall m₂ hm₂
      rw [← hqeq]
      simpa using hfalse
    · rw [heq] at hn
      simp at hn

/-- Witness for C7: on `seqW` from position 16, `find_stop` returns 19, and
the theorem instantiates there. -/
theorem find_stop_first_in_frame_witness :
    16 ≤ 19 ∧ 19 + 3 ≤ seqW.length ∧ tripleAt seqW 19 ∈ stopCodons ∧
      (19 - 16) % 3 = 0 :=
  ⟨((find_stop_first_in_frame seqW 16).1 19 (by decide)).1,
   ((find_stop_first_in_frame seqW 16).1 19 (by decide)).2.1,
   ((find_stop_first_in_frame seqW 16).1 19 (by decide)).2.2.1,
   ((find_stop_first_in_frame seqW 16).1 19 (by decide)).2.2.2.1⟩

/-- C8: `has_shine_dalgarno` returns false immediately when
`start - max_distance < 0` (no out-of-range access is possible: the guard
is checked first), and otherwise returns true exactly when some occurrence
of the Shine-Dalgarno pattern lies entirely within the window
`[start - max_distance, start - 6)`. -/
theorem has_shine_dalgarno_window_iff (s : List Char) (start maxd : Nat) :
    (start < maxd → has_shine_dalgarno s start maxd = false) ∧
    (maxd ≤ start →
      (has_shine_dalgarno s start maxd = true ↔
        ∃ p e, start - maxd ≤ p ∧ p < e ∧ e ≤ start - 6 ∧
          reMatches shineRE s p e = true)) := by
  constructor
  · intro h
    rw [has_shine_dalgarno, if_neg (by omega)]
  · intro h
    rw [has_shine_dalgarno, if_pos h]
    exact searchFrom_take_isSome_iff shineRE_consuming

/-- Witness for C8: on `seqW` the window `[0, 10)` of a start at 16 contains
the motif `AGGAGG` (so the detector answers true), and a start at 3 with
`max_distance` 16 gives an invalid window (false). -/
theorem has_shine_dalgarno_window_iff_witness :
    has_shine_dalgarno seqW 16 16 = true ∧ has_shine_dalgarno seqW 3 16 = false :=
  ⟨((has_shine_dalgarno_window_iff seqW 16 16).2 (by decide)).mpr
      ⟨0, 6, by decide, by decide, by decide, by decide⟩,
   (has_shine_dalgarno_window_iff seqW 3 16).1 (by decide)⟩

/-- C9: on any sequence over {A,C,G,T}, `reverse_complement` succeeds,
preserves the length, places at index `i` the Watson-Crick complement of the
input symbol at index `N - 1 - i`, and applying it twice gives the original
sequence back. -/
theorem reverse_complement_involution (s : List Char)
    (h : ∀ c ∈ s, c = 'A' ∨ c = 'C' ∨ c = 'G' ∨ c = 'T') :
    ∃ t, reverse_complement s = some t ∧ t.length = s.length ∧
      (∀ i, i < s.length → t.getD i 'N' = complChar (s.getD (s.length - 1 - i) 'N')) ∧
      reverse_complement t = some s := by
  have hrev : ∀ c ∈ s.reverse, c = 'A' ∨ c = 'C' ∨ c = 'G' ∨ c = 'T' :=
    fun c hc => h c (List.mem_reverse.1 hc)
  refine ⟨s.reverse.map complChar, mapComplement_eq_map hrev, by simp, ?_, ?_⟩
  · intro i hi
    have hi2 : i < (s.reverse.map complChar).length := by simp [hi]
    have hi3 : s.length - 1 - i < s.length := by omega
    rw [List.getD_eq_getElem _ 'N' hi2, List.getElem_map, List.getElem_reverse,
      List.getD_eq_getElem _ 'N' hi3]
  · have hχ : (s.reverse.map complChar).reverse = s.map complChar := by
      rw [← List.map_reverse, List.reverse_reverse]
    have hvalid : ∀ c ∈ s.map complChar, c = 'A' ∨ c = 'C' ∨ c = 'G' ∨ c = 'T' := by
      intro c hc
      rcases List.mem_map.1 hc with ⟨d, hd, rfl⟩
      exact (complChar_valid (h d hd)).1
    rw [reverse_complement, hχ, mapComplement_eq_map hvalid, map_complChar_twice h]

/-- Witness for C9: instantiating the involution on `ATGAAATAA`. -/
theorem reverse_complement_involution_witness :
    (reverse_complement seqX).bind reverse_complement = some seqX := by
  obtain ⟨t, h1, _, _, h4⟩ := reverse_complement_involution seqX (by decide)
  rw [h1]
  simpa using h4

/-- C10 (implicit): every Gene Interval `(a, b)` returned by `predict_genes`
really begins at a start codon and ends at the last base of a stop codon:
the bases at 0-indexed positions `a-1 .. a+1` form one of ATT, ATG, GTG,
TTG, CTG and the bases at `b-3 .. b-1` form one of TAA, TAG, TGA. -/
theorem predicted_genes_start_stop_codons (cfg : Cfg) (s : List Char) (fuel : Nat)
    (genes : List (Nat × Nat)) (h : predict_genes cfg s fuel = some genes) :
    ∀ g ∈ genes, g.1 + 2 ≤ s.length ∧ g.2 ≤ s.length ∧
      tripleAt s (g.1 - 1) ∈ startCodons ∧ tripleAt s (g.2 - 3) ∈ stopCodons := by
  intro g hg
  obtain ⟨hok, _⟩ := predict_genes_invariant h
  obtain ⟨c, t, rfl, h1, h2, h3, _, _, h6, h7⟩ := hok g hg
  refine ⟨?_, ?_, ?_, ?_⟩
  · show c + 1 + 2 ≤ s.length
    omega
  · exact h3
  · show tripleAt s (c + 1 - 1) ∈ startCodons
    simpa using h6
  · show tripleAt s (t + 3 - 3) ∈ stopCodons
    simpa using h7

/-- Witness for C10: the gene `(17, 22)` of `seqW` starts with `ATG` at
index 16 and ends with `TAA` at indices 19–21. -/
theorem predicted_genes_start_stop_codons_witness :
    tripleAt seqW 16 ∈ startCodons ∧ tripleAt seqW 19 ∈ stopCodons := by
  have := predicted_genes_start_stop_codons ⟨5, 16, 1⟩ seqW 2 [(17, 22)] (by decide)
    (17, 22) (by decide)
  exact ⟨by simpa using this.2.2.1, by simpa using this.2.2.2⟩

end GPred
